import Mathlib

/-!
Verification of the streaming orchestration layer of `realtime-ai-talk`
(`server/rvc_wrapper.py`, `server/ws_app.py`, `server/server.py`).

Shallow embedding conventions:
* waveforms (numpy float32 arrays) are `List ℚ`; float arithmetic is modelled
  by exact rational arithmetic;
* sample counts and lengths are `ℕ`/`ℤ` (Python ints are unbounded);
* Python text is `List Char`;
* code that can raise is modelled with `Except` or with an explicit
  failure oracle;
* process state (current working directory, the warmed-bucket set) is passed
  explicitly.
-/

namespace RealtimeAITalk

/-! ### BucketScheduler (`rvc_wrapper.py`, `RVCConverter._bucket_len`,
`RVCConverter.warm_bucket`, lines 305-349)

`_bucket_len` reads `self.bucketing : bool` and `self.bucket_samples : int`;
both are embedded as explicit arguments.  Python `//` on ints is floor
division, embedded as `Int.fdiv`. -/

/-- Embeds `RVCConverter._bucket_len` (rvc_wrapper.py lines 305-310):
`if not self.bucketing or self.bucket_samples <= 0: return n` and otherwise
`((n + bs - 1) // bs) * bs`. -/
def bucket_len (bucketing : Bool) (bucket_samples : ℤ) (n : ℤ) : ℤ :=
  if bucketing = false ∨ bucket_samples ≤ 0 then n
  else ((n + bucket_samples - 1).fdiv bucket_samples) * bucket_samples

/-- Embeds the spec's `needsWarm(bucketLen)`, which in the source is the
expression `nb not in self._warmed_buckets` (rvc_wrapper.py lines 317, 405).
The process-wide set `self._warmed_buckets : Set[int]` is embedded as a
`List ℤ` with membership semantics. -/
def needsWarm (warmed : List ℤ) (nb : ℤ) : Bool :=
  !(warmed.contains nb)

/-- Embeds `RVCConverter.warm_bucket` (rvc_wrapper.py lines 312-349).
Returns the new warmed set together with the list of calls made into the
voice-conversion engine, each call recorded as the zero-filled clip
`np.zeros(nb_samples)` that was passed to `self.pipeline.pipeline`.
The guard is
`if (not self.bucketing) or (nb_samples <= 0) or (nb_samples in self._warmed_buckets): return`;
otherwise exactly one pipeline call is made and `nb_samples` is added to
`self._warmed_buckets`. -/
def warm_bucket (bucketing : Bool) (warmed : List ℤ) (nb_samples : ℤ) :
    List ℤ × List (List ℚ) :=
  if bucketing = false ∨ nb_samples ≤ 0 ∨ warmed.contains nb_samples then
    (warmed, [])
  else
    (nb_samples :: warmed, [List.replicate nb_samples.toNat (0 : ℚ)])

/-! ### AudioConditioner postprocess (`rvc_wrapper.py`,
`RVCConverter.convert`, lines 414-446)

After inference, `convert` computes
`exp_len = int(round(n_in * (out_sr / 16000.0)))` and then, only when the
raw engine output `y` is non-empty (`if y.size:`), crops it to `exp_len` if
longer, right-zero-pads it to `exp_len` if shorter, rescales it so the peak
does not exceed 0.99, and replaces non-finite samples with 0.
`np.nan_to_num` is the identity on the rational model (ℚ has no NaN/inf). -/

/-- Computable floor of a rational: `⌊q⌋` via floor division of numerator by
denominator. -/
def ratFloor (q : ℚ) : ℤ :=
  q.num.fdiv q.den

/-- Embeds Python's `round` (banker's rounding, round-half-to-even) on the
rational model of the float argument.  Writing `q = f + r` with `f = ⌊q⌋`
and `0 ≤ r < 1`, the fractional part `r` is compared with `1/2` through the
integer `2·r·den = 2·(num − f·den)` against `den`, and ties go to the even
neighbour. -/
def roundHalfEven (q : ℚ) : ℤ :=
  let f : ℤ := ratFloor q
  let twiceRemNum : ℤ := 2 * (q.num - f * q.den)
  if twiceRemNum < q.den then f
  else if (q.den : ℤ) < twiceRemNum then f + 1
  else if f % 2 = 0 then f else f + 1

/-- Embeds `exp_len = int(round(n_in * (out_sr / 16000.0)))`
(rvc_wrapper.py line 416), with the float expression
`n_in * (out_sr / 16000.0)` modelled exactly as the rational
`n_in · out_sr / 16000`. -/
def expectedLen (n_in out_sr : ℕ) : ℕ :=
  (roundHalfEven (mkRat (n_in * out_sr) 16000)).toNat

/-- Embeds `float(np.max(np.abs(y)))`: the peak absolute amplitude of a
waveform (0 for the empty waveform, as a fold). -/
def peakAbs (y : List ℚ) : ℚ :=
  y.foldr (fun s acc => max |s| acc) 0

/-- Embeds the crop/pad step of `RVCConverter.convert`
(rvc_wrapper.py lines 437-441): crop to `exp_len` when longer, right-pad
with zeros when shorter. -/
def cropPad (exp_len : ℕ) (y : List ℚ) : List ℚ :=
  if exp_len < y.length then y.take exp_len
  else if y.length < exp_len then y ++ List.replicate (exp_len - y.length) 0
  else y

/-- Embeds the peak-limiting step of `RVCConverter.convert`
(rvc_wrapper.py lines 443-446): if the peak exceeds 0.99, scale by
`0.99 / peak`; `np.nan_to_num` is the identity here. -/
def postScale (y : List ℚ) : List ℚ :=
  let peak := peakAbs y
  if 99/100 < peak then y.map (fun s => (99/100) / peak * s) else y

/-- Embeds the output-handling tail of `RVCConverter.convert`
(rvc_wrapper.py lines 434-446): the whole crop/pad/limit block is guarded by
`if y.size:`, so an empty raw engine output is returned unchanged. -/
def convert_post (exp_len : ℕ) (y : List ℚ) : List ℚ :=
  if y.isEmpty then y else postScale (cropPad exp_len y)

/-! ### Working-directory discipline of `RVCConverter.convert`
(`rvc_wrapper.py` lines 364-452)

`convert` saves `original_cwd = os.getcwd()`, enters a `try:` block whose
first statement is `os.chdir(self.rvc_root)`, runs the whole inference body
inside it, and restores the directory in `finally: os.chdir(original_cwd)`.
The body is embedded as an arbitrary state transformer that may itself
change the directory and may either return a waveform or raise. -/

/-- Process-wide mutable state relevant to the frame condition of
`RVCConverter.convert`: the current working directory. -/
structure ProcState where
  cwd : String
deriving DecidableEq

/-- Embeds the `try/finally` skeleton of `RVCConverter.convert`
(rvc_wrapper.py lines 364-452): save `os.getcwd()`, `os.chdir(rvc_root)`,
run the body (which may raise, modelled by `Except`, and may itself move the
directory), and in all cases restore the saved directory in `finally`. -/
def convertCwd (rvc_root : String) (body : ProcState → Except String (List ℚ) × ProcState)
    (s : ProcState) : Except String (List ℚ) × ProcState :=
  let original_cwd := s.cwd
  let step := body { cwd := rvc_root }
  (step.1, { step.2 with cwd := original_cwd })

/-! ### Per-segment error handling (`ws_app.py`)

In `ws_tts_stream` (lines 174-224) each piece of an utterance is processed
inside its own `try: ... except Exception as e: print(...)`: a failure while
processing one piece is logged and the `for` loop continues with the next
piece.  In `ws_tts` (lines 552-653) the per-piece `except` clause instead
sends an error event and executes `break`, abandoning the remaining pieces
(the final `"end"` event is still sent afterwards).

The processing of one piece (VOICEVOX synthesis, RVC conversion,
conditioning) is embedded as an oracle `proc : String → Except String α`
(`Except.error` = the Python code raised somewhere inside the `try`). -/

/-- Embeds the per-piece loop of `ws_tts_stream` (ws_app.py lines 174-224):
every piece is attempted; a piece whose processing raises contributes
`none` (the exception is caught, logged and dropped) and the loop continues
with the next piece. -/
def segLoopStream (proc : String → Except String (List ℚ)) :
    List String → List (Option (List ℚ))
  | [] => []
  | p :: rest =>
    (match proc p with
     | Except.ok a => some a
     | Except.error _ => none) :: segLoopStream proc rest

/-- Characterization helper for the failure oracle: did the processing of a
piece succeed? -/
def exceptOk {ε α : Type} : Except ε α → Bool
  | Except.ok _ => true
  | Except.error _ => false

/-- Characterization helper for the failure oracle: the successful result,
if any. -/
def exceptVal {ε α : Type} : Except ε α → Option α
  | Except.ok a => some a
  | Except.error _ => none

@[simp] lemma exceptOk_ok {ε α : Type} (a : α) :
    exceptOk (Except.ok a : Except ε α) = true := rfl

@[simp] lemma exceptOk_error {ε α : Type} (e : ε) :
    exceptOk (Except.error e : Except ε α) = false := rfl

@[simp] lemma exceptVal_ok {ε α : Type} (a : α) :
    exceptVal (Except.ok a : Except ε α) = some a := rfl

@[simp] lemma exceptVal_error {ε α : Type} (e : ε) :
    exceptVal (Except.error e : Except ε α) = none := rfl

/-- Embeds the per-piece loop of `ws_tts` (ws_app.py lines 552-653): the
first piece whose processing raises sends an error event and executes
`break`; the remaining pieces are not processed.  Returns the results of
the pieces processed before the failure, together with the error if one
occurred. -/
def segLoopTts (proc : String → Except String (List ℚ)) :
    List String → List (List ℚ) × Option String
  | [] => ([], none)
  | p :: rest =>
    match proc p with
    | Except.error e => ([], some e)
    | Except.ok a =>
      let r := segLoopTts proc rest
      (a :: r.1, r.2)

/-! ### FramePacketizer (`ws_app.py`, `iter_pcm16_frames`, lines 100-108)

```
def iter_pcm16_frames(pcm_f32, sr, frame_ms=20):
    n = int(sr * frame_ms / 1000)
    for i in range(0, len(pcm_f32), n):
        f = pcm_f32[i:i+n]
        if f.size < n:
            f = np.pad(f, (0, n - f.size), constant_values=0)
        f = np.clip(f, -1.0, 1.0)
        yield (f * 32767.0).astype(np.int16).tobytes()
```

`astype(np.int16)` on an in-range float truncates toward zero.  A yielded
byte string of `n` int16 samples has `2 * n` bytes; a frame is embedded as
the `List ℤ` of its int16 sample values.  `range(0, len, n)` with `n = 0`
raises in Python; the embedding returns `[]` in that degenerate case and is
only ever used with `0 < n`. -/

/-- Embeds `np.clip(f, -1.0, 1.0)` on one sample. -/
def clamp1 (s : ℚ) : ℚ :=
  max (-1) (min 1 s)

/-- Embeds float-to-int conversion `astype(np.int16)` (truncation toward
zero) on a value already in the int16 range. -/
def truncToInt (q : ℚ) : ℤ :=
  if 0 ≤ q then ratFloor q else -(ratFloor (-q))

/-- Embeds the per-sample pipeline of `iter_pcm16_frames`: clamp to
`[-1, 1]`, scale by `32767.0`, truncate to an integer sample. -/
def pcm16 (s : ℚ) : ℤ :=
  truncToInt (clamp1 s * 32767)

/-- Embeds one loop iteration of `iter_pcm16_frames`: the window is
right-zero-padded to `n` samples if short, then clamped and scaled. -/
def mkFrame (n : ℕ) (chunk : List ℚ) : List ℤ :=
  (chunk ++ List.replicate (n - chunk.length) 0).map pcm16

/-- Embeds the generator loop `for i in range(0, len(pcm_f32), n)` of
`iter_pcm16_frames` (ws_app.py lines 103-108) as the list of all yielded
frames. -/
def iterPcm16Frames (n : ℕ) (pcm : List ℚ) : List (List ℤ) :=
  if h : n = 0 ∨ pcm = [] then []
  else mkFrame n (pcm.take n) :: iterPcm16Frames n (pcm.drop n)
termination_by pcm.length
decreasing_by
  push_neg at h
  have h1 : pcm.length ≠ 0 := by
    simpa [List.length_eq_zero] using h.2
  simp only [List.length_drop]
  omega

/-- Embeds `n = int(sr * frame_ms / 1000)` (ws_app.py line 102): for
integer inputs the float expression truncates to the exact integer quotient. -/
def frameLenOf (sr frame_ms : ℕ) : ℕ :=
  sr * frame_ms / 1000

/-- Embeds `silence_samples = int(out_sr * 0.02)` (ws_app.py line 676);
for the sample rates in use `int(out_sr * 0.02)` equals `⌊out_sr · 2/100⌋`. -/
def silenceSamples (sr : ℕ) : ℕ :=
  sr * 2 / 100

/-- Byte length of a frame: each int16 sample contributes 2 bytes
(`tobytes`). -/
def frameBytes (f : List ℤ) : ℕ :=
  2 * f.length

/-- Embeds the frame-sending block of `ws_tts` (ws_app.py lines 656-677):
every truthy frame from `iter_pcm16_frames(conv, out_sr, 20)` is sent
(`if not frame: continue` skips empty byte strings), and if no frame was
sent at all, one chunk `b"\x00\x00" * silence_samples` of zero samples is
sent instead.  Returns the list of binary messages actually sent, each as a
list of int16 sample values. -/
def sentFrames (out_sr : ℕ) (conv : List ℚ) : List (List ℤ) :=
  let fs := (iterPcm16Frames (frameLenOf out_sr 20) conv).filter (fun f => !f.isEmpty)
  if fs.isEmpty then [List.replicate (silenceSamples out_sr) 0] else fs

/-! ### TextSegmenter (`ws_app.py`, `slice_text`, lines 72-98)

`slice_text` does `re.split(r'([。！？!?、,])', s)`, then walks the parts
accumulating a buffer, flushing `buf.strip()` into `merged` at every
separator part, flushing the stripped tail at the end, and finally keeps
only the pieces with `re.sub(r'[。！？!?、,\s]', '', piece)` non-empty.

Character-level embedding of the `re.split` walk: the parts alternate
text/separator; iterating them while appending to `buf` is the same as
scanning the characters one by one and flushing at every separator
character.  (Empty text parts satisfy Python's substring test
`'' in "。！？!?、,"`, but at such parts the buffer is always empty — they
occur only at the start or directly after a separator — so that branch is a
no-op and does not change the result.)  `str.strip()` and `\s` are modelled
on the six ASCII whitespace characters. -/

/-- The separator class `[。！？!?、,]` of `slice_text`. -/
def sepChars : List Char := ['。', '！', '？', '!', '?', '、', ',']

/-- Membership in the separator class (`part in "。！？!?、,"` for a
single separator character). -/
def isSep (c : Char) : Bool :=
  sepChars.contains c

/-- Python whitespace (`str.strip`, regex `\s`), modelled on the six ASCII
whitespace characters. -/
def pySpace (c : Char) : Bool :=
  c == ' ' || c == '\t' || c == '\n' || c == '\r' || c == '\x0b' || c == '\x0c'

/-- Embeds Python `str.strip()`: remove leading and trailing whitespace. -/
def pyStrip (l : List Char) : List Char :=
  ((l.dropWhile pySpace).reverse.dropWhile pySpace).reverse

/-- Characters that survive `re.sub(r'[。！？!?、,\s]', '', piece)`:
neither separator punctuation nor whitespace. -/
def keepChar (c : Char) : Bool :=
  !(isSep c) && !(pySpace c)

/-- Embeds `re.sub(r'[。！？!?、,\s]', '', piece)` (ws_app.py line 95). -/
def stripPunctSpace (l : List Char) : List Char :=
  l.filter keepChar

/-- Embeds the merge loop of `slice_text` (ws_app.py lines 76-89): scan the
characters, flush the stripped buffer (separator attached) at every
separator character if non-empty, and flush the stripped tail at the end if
non-empty. -/
def sliceMerge : List Char → List Char → List (List Char)
  | [], buf => if (pyStrip buf).isEmpty then [] else [pyStrip buf]
  | c :: rest, buf =>
    if isSep c then
      (if (pyStrip (buf ++ [c])).isEmpty then [] else [pyStrip (buf ++ [c])]) ++
        sliceMerge rest []
    else
      sliceMerge rest (buf ++ [c])

/-- Embeds `slice_text` (ws_app.py lines 72-98): the merge loop followed by
the filter discarding pieces that are punctuation/whitespace only. -/
def slice_text (s : List Char) : List (List Char) :=
  (sliceMerge s []).filter (fun piece => !(stripPunctSpace piece).isEmpty)

/-! ### Session buffer logic of `ws_tts_stream` (`ws_app.py` lines 140-293)

On a `{"type":"text"}` message (lines 145-172) the chunk is appended to
`text_buffer`, `slice_text` is run on the whole buffer, and:
* if no pieces result, nothing is emitted and the buffer keeps the text;
* if the buffer ends in one of `[。！？!?、,.\n]` (the regex
  `re.search(r'[。！？!?、,.\n]$', text_buffer)`; `$` before a trailing
  newline coincides with the last-character test because `\n` is in the
  class), all pieces are emitted and the buffer is cleared;
* otherwise, if there are at least two pieces, all but the last are emitted
  and the buffer becomes the last piece; with a single piece nothing is
  emitted and the buffer keeps the text.

On a `{"type":"end"}` message (lines 226-286) the stripped buffer is sliced
and all resulting pieces are emitted; the buffer is cleared. -/

/-- The terminator class `[。！？!?、,.\n]` used by `ws_tts_stream` line 161. -/
def isTerm (c : Char) : Bool :=
  (['。', '！', '？', '!', '?', '、', ',', '.', '\n'] : List Char).contains c

/-- Embeds `re.search(r'[。！？!?、,.\n]$', text_buffer)` as a test on the
last character. -/
def endsWithTerm (s : List Char) : Bool :=
  match s.getLast? with
  | some c => isTerm c
  | none => false

/-- Embeds one `{"type":"text"}` event of `ws_tts_stream` (ws_app.py lines
145-172): returns the pieces processed now and the new buffer. -/
def textChunkStep (buffer chunk : List Char) : List (List Char) × List Char :=
  let buf := buffer ++ chunk
  let pieces := slice_text buf
  if pieces.isEmpty then ([], buf)
  else if endsWithTerm buf then (pieces, [])
  else if 1 < pieces.length then (pieces.dropLast, pieces.getLastD [])
  else ([], buf)

/-- Embeds the `{"type":"end"}` event of `ws_tts_stream` (ws_app.py lines
226-286): strip the buffer, slice it, emit all pieces, clear the buffer. -/
def flushStep (buffer : List Char) : List (List Char) × List Char :=
  let final := pyStrip buffer
  if final.isEmpty then ([], []) else (slice_text final, [])

/-- One fold step of a session: accumulate emitted pieces and thread the
buffer. -/
def sessStep (acc : List (List Char) × List Char) (chunk : List Char) :
    List (List Char) × List Char :=
  let r := textChunkStep acc.2 chunk
  (acc.1 ++ r.1, r.2)

/-- Embeds a whole `ws_tts_stream` session on one utterance: a sequence of
`{"type":"text"}` chunks starting from the empty buffer, followed by one
`{"type":"end"}` flush; returns every emitted piece in order. -/
def runSession (chunks : List (List Char)) : List (List Char) :=
  let fin := chunks.foldl sessStep ([], [])
  fin.1 ++ (flushStep fin.2).1

/-! ## Helper lemmas -/

/-- In the enabled case, `bucket_len` returns a multiple of the bucket size
that lies in `[n, n + bs)` and is below every multiple of `bs` that is
`≥ n`. -/
lemma bucket_len_pos_spec (bs n : ℤ) (hbs : 0 < bs) :
    bs ∣ bucket_len true bs n ∧ n ≤ bucket_len true bs n ∧
    bucket_len true bs n < n + bs ∧
    ∀ m : ℤ, bs ∣ m → n ≤ m → bucket_len true bs n ≤ m := by
  have hcond : ¬ (true = false ∨ bs ≤ 0) := by
    simp only [Bool.true_eq_false, false_or, not_le]
    exact hbs
  have hval : bucket_len true bs n = ((n + bs - 1) / bs) * bs := by
    rw [bucket_len, if_neg hcond, Int.fdiv_eq_ediv _ hbs.le]
  set a : ℤ := n + bs - 1 with ha
  have hdm : bs * (a / bs) + a % bs = a := Int.ediv_add_emod a bs
  have hm0 : 0 ≤ a % bs := Int.emod_nonneg a hbs.ne'
  have hm1 : a % bs < bs := Int.emod_lt_of_pos a hbs
  have hq : (a / bs) * bs = a - a % bs := by linarith [hdm]
  refine ⟨?_, ?_, ?_, ?_⟩
  · rw [hval]; exact dvd_mul_left bs _
  · rw [hval, hq]; omega
  · rw [hval, hq]; omega
  · intro m hdvd hnm
    obtain ⟨k, hk⟩ := hdvd
    subst hk
    have hqk : a / bs ≤ k := by
      by_contra hcon
      push_neg at hcon
      have hstep : bs * (k + 1) ≤ bs * (a / bs) :=
        mul_le_mul_of_nonneg_left hcon hbs.le
      have hexp : bs * (k + 1) = bs * k + bs := by ring
      have h3 : (a / bs) * bs = bs * (a / bs) := mul_comm _ _
      linarith
    have hfin : (a / bs) * bs ≤ k * bs :=
      mul_le_mul_of_nonneg_right hqk hbs.le
    rw [hval]
    calc (a / bs) * bs ≤ k * bs := hfin
    _ = bs * k := mul_comm _ _

/-- When disabled (or the bucket size is nonpositive), `bucket_len` is the
identity. -/
lemma bucket_len_off (b : Bool) (bs n : ℤ) (h : b = false ∨ bs ≤ 0) :
    bucket_len b bs n = n := by
  rw [bucket_len, if_pos h]

/-- `cropPad` in one equation: crop to `exp_len` and right-pad with zeros. -/
lemma cropPad_eq (e : ℕ) (y : List ℚ) :
    cropPad e y = y.take e ++ List.replicate (e - y.length) 0 := by
  rw [cropPad]
  split_ifs with h1 h2
  · rw [Nat.sub_eq_zero_of_le h1.le]
    simp
  · rw [List.take_of_length_le h2.le]
  · have he : e = y.length := by omega
    subst he
    simp

/-- `cropPad` always produces exactly `exp_len` samples. -/
lemma cropPad_length (e : ℕ) (y : List ℚ) : (cropPad e y).length = e := by
  rw [cropPad_eq]
  simp only [List.length_append, List.length_take, List.length_replicate]
  omega

/-- `postScale` preserves the length. -/
lemma postScale_length (y : List ℚ) : (postScale y).length = y.length := by
  rw [postScale]
  split_ifs <;> simp

/-- The computable rational floor agrees with Mathlib's floor. -/
lemma ratFloor_eq_floor (q : ℚ) : ratFloor q = ⌊q⌋ := by
  have hd : (0 : ℤ) ≤ (q.den : ℤ) := by exact_mod_cast Nat.zero_le q.den
  rw [ratFloor, Int.fdiv_eq_ediv _ hd, Rat.floor_def]

/-- Truncation toward zero stays inside a symmetric integer bound. -/
lemma truncToInt_bound (q : ℚ) (B : ℤ) (hB : 0 ≤ B) (h1 : -(B : ℚ) ≤ q)
    (h2 : q ≤ (B : ℚ)) : -B ≤ truncToInt q ∧ truncToInt q ≤ B := by
  rw [truncToInt]
  split_ifs with h
  · rw [ratFloor_eq_floor]
    constructor
    · exact le_trans (by omega) (Int.floor_nonneg.mpr h)
    · calc ⌊q⌋ ≤ ⌊(B : ℚ)⌋ := Int.floor_le_floor h2
      _ = B := Int.floor_intCast B
  · push_neg at h
    rw [ratFloor_eq_floor]
    have hq0 : (0 : ℚ) ≤ -q := by linarith
    have hup : ⌊-q⌋ ≤ B := by
      calc ⌊-q⌋ ≤ ⌊(B : ℚ)⌋ := Int.floor_le_floor (by linarith)
      _ = B := Int.floor_intCast B
    have hlo : 0 ≤ ⌊-q⌋ := Int.floor_nonneg.mpr hq0
    omega

/-- Every packed sample lies in `[-32767, 32767]`. -/
lemma pcm16_bound (s : ℚ) : -32767 ≤ pcm16 s ∧ pcm16 s ≤ 32767 := by
  have hlo : -1 ≤ clamp1 s := le_max_left _ _
  have hhi : clamp1 s ≤ 1 := max_le (by norm_num) (min_le_left _ _)
  rw [pcm16]
  refine truncToInt_bound _ 32767 (by norm_num) ?_ ?_
  · push_cast; nlinarith
  · push_cast; nlinarith

/-- A window no longer than the frame size packs to exactly the frame size. -/
lemma mkFrame_length (n : ℕ) (chunk : List ℚ) (h : chunk.length ≤ n) :
    (mkFrame n chunk).length = n := by
  rw [mkFrame]
  simp only [List.length_map, List.length_append, List.length_replicate]
  omega

/-- The packetizer yields nothing on an empty clip. -/
lemma iterFrames_nil (n : ℕ) : iterPcm16Frames n [] = [] := by
  rw [iterPcm16Frames]
  simp

/-- Unfolding of the packetizer on a non-empty clip with a positive frame
size. -/
lemma iterFrames_pos (n : ℕ) (pcm : List ℚ) (hn : n ≠ 0) (hp : pcm ≠ []) :
    iterPcm16Frames n pcm =
      mkFrame n (pcm.take n) :: iterPcm16Frames n (pcm.drop n) := by
  rw [iterPcm16Frames]
  simp [hn, hp]

/-- Ceiling division of a window count that fits in one frame. -/
lemma ceilDiv_one (L n : ℕ) (h1 : 0 < L) (h2 : L ≤ n) : (L + n - 1) / n = 1 := by
  apply Nat.div_eq_of_lt_le <;> omega

/-- Ceiling division peels off one full frame. -/
lemma ceilDiv_step (L n : ℕ) (hn : 0 < n) (h : n < L) :
    (L + n - 1) / n = (L - n + n - 1) / n + 1 := by
  have h1 : L - n + n - 1 = L - 1 := by omega
  have h2 : L + n - 1 = (L - 1) + n := by omega
  rw [h1, h2, Nat.add_div_right _ hn]

/-- Full specification of the packetizer loop on a non-empty clip: frame
count is the ceiling of `length / n`, every frame has `n` samples, and the
concatenation of all frames is the zero-padded clip mapped through the
clamp-scale-truncate sample conversion. -/
lemma iterFrames_spec (n : ℕ) (hn : 0 < n) :
    ∀ (L : ℕ) (pcm : List ℚ), pcm.length ≤ L → pcm ≠ [] →
      (iterPcm16Frames n pcm).length = (pcm.length + n - 1) / n ∧
      (∀ f ∈ iterPcm16Frames n pcm, f.length = n) ∧
      (iterPcm16Frames n pcm).flatten =
        (pcm ++
          List.replicate ((pcm.length + n - 1) / n * n - pcm.length) 0).map pcm16 := by
  intro L
  induction L with
  | zero =>
    intro pcm hL hp
    exact absurd (List.length_eq_zero.mp (by omega)) hp
  | succ L ih =>
    intro pcm hL hp
    have hpos : 0 < pcm.length := List.length_pos.mpr hp
    rw [iterFrames_pos n pcm hn.ne' hp]
    by_cases hle : pcm.length ≤ n
    · have hdrop : pcm.drop n = [] := List.drop_eq_nil_iff.mpr hle
      have htake : pcm.take n = pcm := List.take_of_length_le hle
      have hceil : (pcm.length + n - 1) / n = 1 := ceilDiv_one _ _ hpos hle
      rw [hdrop, iterFrames_nil, htake, hceil]
      refine ⟨rfl, ?_, ?_⟩
      · intro f hf
        rw [List.mem_singleton] at hf
        subst hf
        exact mkFrame_length n pcm hle
      · simp [mkFrame]
    · push_neg at hle
      have hdlen : (pcm.drop n).length = pcm.length - n := List.length_drop n pcm
      have hdp : pcm.drop n ≠ [] := by
        intro hcon
        have := congrArg List.length hcon
        rw [hdlen] at this
        simp at this
        omega
      obtain ⟨ihc, ihf, ihcat⟩ := ih (pcm.drop n) (by omega) hdp
      have htlen : (pcm.take n).length = n := by
        rw [List.length_take]
        omega
      have hceil := ceilDiv_step pcm.length n hn hle
      refine ⟨?_, ?_, ?_⟩
      · rw [List.length_cons, ihc, hdlen, hceil]
      · intro f hf
        rcases List.mem_cons.mp hf with hf | hf
        · subst hf
          exact mkFrame_length n _ (by rw [htlen])
        · exact ihf f hf
      · rw [List.flatten_cons, ihcat, hdlen, hceil]
        have hmk : mkFrame n (pcm.take n) = (pcm.take n).map pcm16 := by
          rw [mkFrame, htlen]
          simp
        have hcount :
            ((pcm.length - n + n - 1) / n + 1) * n - pcm.length =
              (pcm.length - n + n - 1) / n * n - (pcm.length - n) := by
          have hmul : ((pcm.length - n + n - 1) / n + 1) * n =
              (pcm.length - n + n - 1) / n * n + n := by ring
          omega
        rw [hmk, hcount, ← List.map_append, ← List.append_assoc,
          List.take_append_drop]

/-- Every sample value in every yielded frame lies in the signed 16-bit
range reachable by scaling with 32767. -/
lemma iterFrames_mem_bound (n : ℕ) :
    ∀ (L : ℕ) (pcm : List ℚ), pcm.length ≤ L →
      ∀ f ∈ iterPcm16Frames n pcm, ∀ v ∈ f, -32767 ≤ v ∧ v ≤ 32767 := by
  intro L
  induction L with
  | zero =>
    intro pcm hL f hf v hv
    have hp : pcm = [] := List.length_eq_zero.mp (by omega)
    rw [hp, iterFrames_nil] at hf
    exact absurd hf (List.not_mem_nil f)
  | succ L ih =>
    intro pcm hL f hf v hv
    by_cases hn0 : n = 0
    · rw [hn0, iterPcm16Frames] at hf
      simp at hf
    by_cases hp : pcm = []
    · rw [hp, iterFrames_nil] at hf
      exact absurd hf (List.not_mem_nil f)
    rw [iterFrames_pos n pcm hn0 hp] at hf
    rcases List.mem_cons.mp hf with hf | hf
    · subst hf
      rw [mkFrame] at hv
      obtain ⟨s, _, hs⟩ := List.mem_map.mp hv
      rw [← hs]
      exact pcm16_bound s
    · have hpos : 0 < pcm.length := List.length_pos.mpr hp
      have hdlen : (pcm.drop n).length = pcm.length - n := List.length_drop n pcm
      exact ih (pcm.drop n) (by omega) f hf v hv

/-- `int(out_sr * 0.02)` and `int(out_sr * 20 / 1000)` agree: both are
`out_sr / 50`. -/
lemma silence_eq_frameLen (sr : ℕ) : silenceSamples sr = frameLenOf sr 20 := by
  rw [silenceSamples, frameLenOf]
  have h1 : sr * 2 / 100 = sr / 50 := by
    rw [mul_comm sr 2, show (100 : ℕ) = 2 * 50 from rfl]
    exact Nat.mul_div_mul_left sr 50 (by norm_num)
  have h2 : sr * 20 / 1000 = sr / 50 := by
    rw [mul_comm sr 20, show (1000 : ℕ) = 20 * 50 from rfl]
    exact Nat.mul_div_mul_left sr 50 (by norm_num)
  rw [h1, h2]

/-- Dropping a whitespace run does not change the kept (non-separator,
non-whitespace) characters. -/
lemma filter_keep_dropWhile (l : List Char) :
    (l.dropWhile pySpace).filter keepChar = l.filter keepChar := by
  induction l with
  | nil => rfl
  | cons c rest ih =>
    rw [List.dropWhile_cons]
    by_cases hc : pySpace c
    · have hk : keepChar c = false := by
        rw [keepChar, hc]
        simp
      rw [if_pos hc, ih, List.filter_cons, hk]
      simp
    · rw [if_neg hc]

/-- Stripping surrounding whitespace does not change the kept characters. -/
lemma filter_keep_pyStrip (l : List Char) :
    (pyStrip l).filter keepChar = l.filter keepChar := by
  rw [pyStrip, List.filter_reverse, filter_keep_dropWhile, List.filter_reverse,
    filter_keep_dropWhile, List.reverse_reverse]

/-- The merge loop of `slice_text` preserves the kept characters of
buffer-plus-input, in order. -/
lemma sliceMerge_filter_keep (s : List Char) :
    ∀ buf : List Char,
      ((sliceMerge s buf).flatten).filter keepChar = (buf ++ s).filter keepChar := by
  induction s with
  | nil =>
    intro buf
    simp only [sliceMerge]
    by_cases h : (pyStrip buf).isEmpty
    · rw [if_pos h]
      have hempty : pyStrip buf = [] := List.isEmpty_iff.mp h
      have hf := filter_keep_pyStrip buf
      rw [hempty] at hf
      simp only [List.filter_nil] at hf
      simp [← hf]
    · rw [if_neg h]
      simp [filter_keep_pyStrip]
  | cons c rest ih =>
    intro buf
    simp only [sliceMerge]
    by_cases hc : isSep c
    · rw [if_pos hc]
      have hbufc : buf ++ c :: rest = (buf ++ [c]) ++ rest := by
        rw [List.append_assoc]
        rfl
      by_cases hstrip : (pyStrip (buf ++ [c])).isEmpty
      · rw [if_pos hstrip]
        have hempty : pyStrip (buf ++ [c]) = [] := List.isEmpty_iff.mp hstrip
        have hf := filter_keep_pyStrip (buf ++ [c])
        rw [hempty] at hf
        simp only [List.filter_nil] at hf
        rw [List.nil_append, ih [], hbufc, List.filter_append, List.filter_append,
          ← hf]
        simp
      · rw [if_neg hstrip]
        simp only [List.flatten_append, List.flatten_cons, List.flatten_nil,
          List.append_nil]
        rw [List.filter_append, filter_keep_pyStrip, ih [], List.nil_append,
          hbufc, List.filter_append, List.filter_append, List.filter_append]
    · rw [if_neg hc]
      rw [ih (buf ++ [c]), List.append_assoc]
      rfl

/-- Discarding the punctuation/whitespace-only pieces does not change the
kept characters of the concatenation. -/
lemma filter_keep_discard (ps : List (List Char)) :
    (((ps.filter (fun piece => !(stripPunctSpace piece).isEmpty)).flatten).filter keepChar)
      = (ps.flatten).filter keepChar := by
  induction ps with
  | nil => rfl
  | cons p rest ih =>
    rw [List.filter_cons]
    by_cases h : (stripPunctSpace p).isEmpty
    · have hkeep : p.filter keepChar = [] := by
        have := List.isEmpty_iff.mp h
        rwa [stripPunctSpace] at this
      rw [h]
      simp only [Bool.not_true, Bool.false_eq_true, if_false]
      rw [ih, List.flatten_cons, List.filter_append, hkeep, List.nil_append]
    · have hb : (!(stripPunctSpace p).isEmpty) = true := by
        rw [Bool.not_eq_true']
        exact Bool.not_eq_true _ ▸ h
      rw [if_pos hb, List.flatten_cons, List.flatten_cons, List.filter_append,
        List.filter_append, ih]

/-- `slice_text` preserves the kept characters of its input, in order. -/
lemma slice_text_filter_keep (s : List Char) :
    ((slice_text s).flatten).filter keepChar = s.filter keepChar := by
  rw [slice_text, filter_keep_discard, sliceMerge_filter_keep s [], List.nil_append]

/-- Re-appending the withheld last piece restores the concatenation of all
pieces. -/
lemma flatten_dropLast_getLastD :
    ∀ (ps : List (List Char)) (d : List Char), ps ≠ [] →
      ps.dropLast.flatten ++ ps.getLastD d = ps.flatten := by
  intro ps
  induction ps with
  | nil => intro d h; exact absurd rfl h
  | cons p rest ih =>
    intro d h
    cases rest with
    | nil => simp
    | cons q rest' =>
      rw [List.dropLast_cons₂, List.getLastD_cons, List.flatten_cons,
        List.flatten_cons, List.append_assoc, ih p (List.cons_ne_nil q rest')]

/-- Congruence for the session invariant: a filtered-equality of two
buffer decompositions survives appending the same tail. -/
lemma filter_keep_append_congr {l1 l2 r1 r2 : List Char}
    (h : (l1 ++ l2).filter keepChar = (r1 ++ r2).filter keepChar) (t : List Char) :
    (l1 ++ (l2 ++ t)).filter keepChar = (r1 ++ (r2 ++ t)).filter keepChar := by
  rw [List.filter_append, List.filter_append] at h
  simp only [List.filter_append]
  rw [← List.append_assoc, ← List.append_assoc, h]

/-- One `{"type":"text"}` event preserves the kept characters of emitted
pieces plus the remaining buffer. -/
lemma textChunkStep_filter_keep (buffer chunk : List Char) :
    ((textChunkStep buffer chunk).1.flatten ++ (textChunkStep buffer chunk).2).filter
        keepChar
      = (buffer ++ chunk).filter keepChar := by
  rw [textChunkStep]
  by_cases h1 : (slice_text (buffer ++ chunk)).isEmpty
  · simp only [h1, if_true]
    rw [List.flatten_nil, List.nil_append]
  · simp only [h1, Bool.false_eq_true, if_false]
    by_cases h2 : endsWithTerm (buffer ++ chunk)
    · simp only [h2, if_true]
      rw [List.append_nil, slice_text_filter_keep]
    · simp only [h2, Bool.false_eq_true, if_false]
      by_cases h3 : 1 < (slice_text (buffer ++ chunk)).length
      · simp only [h3, if_true]
        have hne : slice_text (buffer ++ chunk) ≠ [] := by
          intro hcon
          rw [hcon] at h3
          simp at h3
        rw [flatten_dropLast_getLastD _ [] hne, slice_text_filter_keep]
      · simp only [h3, if_false]
        rw [List.flatten_nil, List.nil_append]

/-- The `{"type":"end"}` flush preserves the kept characters of the
buffer. -/
lemma flushStep_filter_keep (buffer : List Char) :
    ((flushStep buffer).1.flatten).filter keepChar = buffer.filter keepChar := by
  rw [flushStep]
  by_cases h : (pyStrip buffer).isEmpty
  · rw [if_pos h]
    have hempty : pyStrip buffer = [] := List.isEmpty_iff.mp h
    have hf := filter_keep_pyStrip buffer
    rw [hempty] at hf
    simp only [List.filter_nil] at hf
    rw [List.flatten_nil, List.filter_nil, hf]
  · rw [if_neg h]
    rw [slice_text_filter_keep, filter_keep_pyStrip]

/-- Invariant of the fold over text chunks: kept characters of
(emitted-so-far ++ buffer) equal kept characters of
(initially-emitted ++ initial buffer ++ consumed chunks). -/
lemma sessFold_filter_keep (chunks : List (List Char)) :
    ∀ acc : List (List Char) × List Char,
      ((chunks.foldl sessStep acc).1.flatten ++ (chunks.foldl sessStep acc).2).filter
          keepChar
        = (acc.1.flatten ++ (acc.2 ++ chunks.flatten)).filter keepChar := by
  induction chunks with
  | nil =>
    intro acc
    rw [List.foldl_nil, List.flatten_nil, List.append_nil]
  | cons c rest ih =>
    intro acc
    rw [List.foldl_cons, ih (sessStep acc c)]
    have key :=
      filter_keep_append_congr (textChunkStep_filter_keep acc.2 c) rest.flatten
    show ((acc.1 ++ (textChunkStep acc.2 c).1).flatten ++
        ((textChunkStep acc.2 c).2 ++ rest.flatten)).filter keepChar = _
    rw [List.flatten_append, List.append_assoc, List.flatten_cons,
      List.filter_append, key, ← List.filter_append]

/-! ## Claims -/

/-- Claim C5: for every non-negative sample count `n`, `_bucket_len` returns
`n` unchanged when bucketing is disabled or the bucket size is `≤ 0`; with
bucketing enabled and bucket size `b > 0` it returns the smallest multiple
`m` of `b` with `m ≥ n`, which satisfies `m ≥ n`, `m < n + b`, `m = n` when
`n = 0`, and quantization is idempotent. -/
theorem claim_C5_bucket_len (b : Bool) (bs n : ℤ) (hn : 0 ≤ n) :
    ((b = false ∨ bs ≤ 0) → bucket_len b bs n = n) ∧
    (b = true → 0 < bs →
      bs ∣ bucket_len b bs n ∧
      n ≤ bucket_len b bs n ∧
      bucket_len b bs n < n + bs ∧
      (n = 0 → bucket_len b bs n = 0) ∧
      (∀ m : ℤ, bs ∣ m → n ≤ m → bucket_len b bs n ≤ m)) ∧
    bucket_len b bs (bucket_len b bs n) = bucket_len b bs n := by
  refine ⟨fun h => bucket_len_off b bs n h, ?_, ?_⟩
  · rintro rfl hbs
    obtain ⟨hdvd, hlo, hhi, hmin⟩ := bucket_len_pos_spec bs n hbs
    refine ⟨hdvd, hlo, hhi, ?_, hmin⟩
    rintro rfl
    have h0 : bucket_len true bs 0 ≤ 0 := hmin 0 (dvd_zero bs) le_rfl
    omega
  · cases b with
    | false =>
      rw [bucket_len_off false bs n (Or.inl rfl),
        bucket_len_off false bs n (Or.inl rfl)]
    | true =>
      rcases le_or_lt bs 0 with hbs | hbs
      · rw [bucket_len_off true bs n (Or.inr hbs),
          bucket_len_off true bs n (Or.inr hbs)]
      · obtain ⟨hdvd, hlo, hhi, hmin⟩ := bucket_len_pos_spec bs n hbs
        obtain ⟨hdvd', hlo', hhi', hmin'⟩ :=
          bucket_len_pos_spec bs (bucket_len true bs n) hbs
        exact le_antisymm (hmin' _ hdvd le_rfl) hlo'

/-- Witness for C5 at `b = true`, `bs = 7`, `n = 10`: the quantized length
lies in `[10, 17)`. -/
theorem claim_C5_witness :
    0 ≤ (10 : ℤ) ∧ (10 : ℤ) ≤ bucket_len true 7 10 ∧ bucket_len true 7 10 < 10 + 7 :=
  ⟨by decide,
   ((claim_C5_bucket_len true 7 10 (by decide)).2.1 rfl (by decide)).2.1,
   ((claim_C5_bucket_len true 7 10 (by decide)).2.1 rfl (by decide)).2.2.1⟩

/-- Claim C7: with bucketing enabled and bucket size 8000, an input of 8001
samples quantizes to 16000; before any warm call `needsWarm 16000` is true;
`warm_bucket 16000` issues exactly one engine call with a 16000-sample
zero-filled clip, after which `needsWarm 16000` is false and a further
`warm_bucket 16000` makes no engine call. -/
theorem claim_C7_warm_scenario :
    bucket_len true 8000 8001 = 16000 ∧
    needsWarm [] 16000 = true ∧
    (warm_bucket true [] 16000).2 = [List.replicate 16000 (0 : ℚ)] ∧
    needsWarm (warm_bucket true [] 16000).1 16000 = false ∧
    (warm_bucket true (warm_bucket true [] 16000).1 16000).2 = [] :=
  ⟨by decide, rfl, rfl, rfl, rfl⟩

/-- Claim C10: the working directory after `RVCConverter.convert` equals
the working directory before the call, both when the body returns normally
and when the inference pipeline raises — the `finally` clause restores the
saved directory around any body behavior. -/
theorem claim_C10_cwd_restored (rvc_root : String)
    (body : ProcState → Except String (List ℚ) × ProcState) (s : ProcState) :
    ((convertCwd rvc_root body s).2).cwd = s.cwd := rfl

/-- Counterexample to claim C4 as stated: in `ws_tts` (cited by the claim),
when the first of two segments fails, the second segment of the same
utterance is never processed — the loop executes `break` instead of
continuing with the next segment. -/
theorem claim_C4_counterexample :
    segLoopTts (fun p => if p = "a" then Except.error "boom" else Except.ok [])
      ["a", "b"] = ([], some "boom") := rfl

/-- Claim C4 (amended): in `ws_tts_stream` a segment failure is caught at
the segment boundary, that segment is dropped, and every remaining segment
of the utterance is still attempted in order (the session survives); in
`ws_tts` the segments before the first failure are processed, and a failure
sends an error event and abandons the remaining segments of the utterance. -/
theorem claim_C4_segment_failures (proc : String → Except String (List ℚ))
    (pieces : List String) :
    segLoopStream proc pieces = pieces.map (fun s => exceptVal (proc s)) ∧
    (segLoopTts proc pieces).1 =
      (pieces.takeWhile (fun s => exceptOk (proc s))).filterMap
        (fun s => exceptVal (proc s)) := by
  constructor
  · induction pieces with
    | nil => rfl
    | cons p rest ih =>
      have hstep : segLoopStream proc (p :: rest) =
          (match proc p with
           | Except.ok a => some a
           | Except.error _ => none) :: segLoopStream proc rest := rfl
      rw [hstep, List.map_cons, ih]
      cases proc p <;> rfl
  · induction pieces with
    | nil => rfl
    | cons p rest ih =>
      have hstep : segLoopTts proc (p :: rest) =
          match proc p with
          | Except.error e => ([], some e)
          | Except.ok a =>
            ((a :: (segLoopTts proc rest).1, (segLoopTts proc rest).2) :
              List (List ℚ) × Option String) := rfl
      rw [hstep, List.takeWhile_cons]
      cases hp : proc p with
      | error e => simp [hp]
      | ok a => simp [hp, List.filterMap_cons, ih]

/-- Counterexample to claim C1 as stated: for a non-empty 16 kHz input of
one sample with output rate 16000 (`expectedLen = 1`), an empty raw engine
output is returned unchanged (length 0), not zero-padded to `expectedLen` —
the crop/pad block is guarded by `if y.size:`. -/
theorem claim_C1_counterexample :
    expectedLen 1 16000 = 1 ∧
    convert_post (expectedLen 1 16000) ([] : List ℚ) = [] ∧
    (convert_post (expectedLen 1 16000) ([] : List ℚ)).length ≠ expectedLen 1 16000 := by
  refine ⟨by decide, by decide, by decide⟩

/-- Claim C1 (amended): for every call to `RVCConverter.convert` with a
non-empty input after resampling, and every NON-EMPTY raw waveform the
engine returns, the output has exactly `expectedLen` samples: longer raw
output is cropped, shorter raw output is right-zero-padded, and the
discrepancy is never surfaced as an error (the postprocessing is total);
an empty raw engine output, however, is returned unchanged with length 0. -/
theorem claim_C1_postprocess_length (exp_len : ℕ) (y : List ℚ) (h : y ≠ []) :
    (convert_post exp_len y).length = exp_len ∧
    cropPad exp_len y = y.take exp_len ++ List.replicate (exp_len - y.length) 0 := by
  constructor
  · rw [convert_post, if_neg (by simpa using h), postScale_length, cropPad_length]
  · exact cropPad_eq exp_len y

/-- Witness for C1 (amended) at `exp_len = 3`, `y = [1/2]`: a one-sample raw
output is padded to exactly 3 samples. -/
theorem claim_C1_witness :
    ([(1 : ℚ)/2] ≠ []) ∧ (convert_post 3 [(1 : ℚ)/2]).length = 3 :=
  ⟨by decide, (claim_C1_postprocess_length 3 [(1 : ℚ)/2] (by decide)).1⟩

/-- Claim C6: for every non-empty input clip and every positive frame size
`k = int(sr·20/1000)`, every yielded frame has exactly `k` samples' worth of
bytes (2 bytes per sample, the final short window right-zero-padded), the
number of frames is `⌈sampleCount / k⌉`, every sample is clamped to
`[-1, 1]` and scaled by `32767` before packing (so the concatenation of all
frames is the zero-padded clip mapped through that conversion), and every
packed value lies in `[-32767, 32767]`. -/
theorem claim_C6_frames (pcm : List ℚ) (n : ℕ) (hp : pcm ≠ []) (hn : 0 < n) :
    (iterPcm16Frames n pcm).length = (pcm.length + n - 1) / n ∧
    (∀ f ∈ iterPcm16Frames n pcm, f.length = n ∧ frameBytes f = 2 * n) ∧
    (iterPcm16Frames n pcm).flatten =
      (pcm ++
        List.replicate ((pcm.length + n - 1) / n * n - pcm.length) 0).map pcm16 ∧
    (∀ f ∈ iterPcm16Frames n pcm, ∀ v ∈ f, -32767 ≤ v ∧ v ≤ 32767) := by
  obtain ⟨hc, hf, hcat⟩ := iterFrames_spec n hn pcm.length pcm le_rfl hp
  refine ⟨hc, ?_, hcat, iterFrames_mem_bound n pcm.length pcm le_rfl⟩
  intro f hmem
  refine ⟨hf f hmem, ?_⟩
  rw [frameBytes, hf f hmem]

/-- Witness for C6 on the concrete clip `[1/2, -2, 3/4]` with frame size 2:
two frames are yielded. -/
theorem claim_C6_witness :
    ([(1 : ℚ)/2, -2, 3/4] ≠ []) ∧ 0 < 2 ∧
    (iterPcm16Frames 2 [(1 : ℚ)/2, -2, 3/4]).length =
      ([(1 : ℚ)/2, -2, 3/4].length + 2 - 1) / 2 :=
  ⟨by decide, by decide,
   (claim_C6_frames [(1 : ℚ)/2, -2, 3/4] 2 (by decide) (by decide)).1⟩

/-- Counterexample to claim C2 as stated: `iter_pcm16_frames` on an input
clip with zero samples yields zero frames, not exactly one silent frame —
`range(0, 0, n)` is empty. -/
theorem claim_C2_counterexample :
    iterPcm16Frames 160 ([] : List ℚ) = [] ∧
    (iterPcm16Frames 160 ([] : List ℚ)).length ≠ 1 := by
  have h := iterFrames_nil 160
  exact ⟨h, by rw [h]; decide⟩

/-- Claim C2 (amended): on an input clip with zero samples the packetizer
`iter_pcm16_frames` itself yields no frames; the frame-sending block of
`ws_tts` then sends exactly one silence chunk `b"\x00\x00" * int(out_sr*0.02)`,
whose sample count equals the frame size `int(out_sr*20/1000)`, so the
transport still receives exactly one zero-valued frame of the correct byte
length. -/
theorem claim_C2_empty_clip (out_sr : ℕ) :
    iterPcm16Frames (frameLenOf out_sr 20) ([] : List ℚ) = [] ∧
    sentFrames out_sr [] = [List.replicate (frameLenOf out_sr 20) 0] ∧
    (sentFrames out_sr []).length = 1 ∧
    ∀ f ∈ sentFrames out_sr [],
      frameBytes f = 2 * frameLenOf out_sr 20 ∧ ∀ v ∈ f, v = 0 := by
  have hnil := iterFrames_nil (frameLenOf out_sr 20)
  have hsent : sentFrames out_sr [] = [List.replicate (frameLenOf out_sr 20) 0] := by
    rw [sentFrames, hnil, silence_eq_frameLen]
    rfl
  refine ⟨hnil, hsent, by rw [hsent]; rfl, ?_⟩
  intro f hf
  rw [hsent, List.mem_singleton] at hf
  subst hf
  constructor
  · rw [frameBytes, List.length_replicate]
  · intro v hv
    exact List.eq_of_mem_replicate hv

/-- Counterexample to claim C3 as stated: the input `"!"` contains the
non-whitespace character `'!'`, yet a session receiving it as one chunk
followed by a forced flush emits no segment at all — the punctuation-only
piece is discarded, so concatenating all emitted segments does not
reproduce the input modulo whitespace. -/
theorem claim_C3_counterexample :
    runSession [['!']] = [] ∧
    ¬ (((runSession [['!']]).flatten).filter (fun c => !(pySpace c)) =
        (([['!']] : List (List Char)).flatten).filter (fun c => !(pySpace c))) :=
  ⟨by decide, by decide⟩

/-- Claim C3 (amended): for every input, concatenating all Segments emitted
by repeated non-flush extractions followed by one forced flush reproduces
the original input modulo whitespace AND modulo the separator punctuation
marks `[。！？!?、,]` of discarded punctuation-only pieces: every character
that is neither whitespace nor a separator mark is preserved exactly and in
order. -/
theorem claim_C3_text_reconstruction (chunks : List (List Char)) :
    ((runSession chunks).flatten).filter keepChar =
      (chunks.flatten).filter keepChar := by
  have hinv := sessFold_filter_keep chunks ([], [])
  simp only [List.flatten_nil, List.nil_append] at hinv
  show (((chunks.foldl sessStep ([], [])).1 ++
      (flushStep (chunks.foldl sessStep ([], [])).2).1).flatten).filter keepChar = _
  rw [List.flatten_append, List.filter_append, flushStep_filter_keep,
    ← List.filter_append]
  exact hinv

/-- Claim C8: every Segment emitted by `slice_text` is non-empty and
contains at least one character that is neither a separator punctuation
mark nor whitespace; pieces that are empty once punctuation and whitespace
are stripped are discarded and never emitted. -/
theorem claim_C8_segment_invariant (s p : List Char) (hp : p ∈ slice_text s) :
    p ≠ [] ∧ ∃ c ∈ p, isSep c = false ∧ pySpace c = false := by
  rw [slice_text] at hp
  obtain ⟨hmem, hcond⟩ := List.mem_filter.mp hp
  have hne : stripPunctSpace p ≠ [] := by
    intro hcon
    rw [hcon] at hcond
    simp at hcond
  have hex : ∃ c ∈ p, keepChar c = true := by
    by_contra hcon
    push_neg at hcon
    exact hne (List.filter_eq_nil_iff.mpr hcon)
  obtain ⟨c, hcp, hk⟩ := hex
  rw [keepChar, Bool.and_eq_true, Bool.not_eq_true', Bool.not_eq_true'] at hk
  refine ⟨?_, c, hcp, hk.1, hk.2⟩
  intro hcon
  subst hcon
  exact absurd hcp (List.not_mem_nil c)

/-- Witness for C8 on the concrete input `"a!"`: its unique segment `"a!"`
is non-empty and contains the kept character `'a'`. -/
theorem claim_C8_witness :
    (['a', '!'] ∈ slice_text ['a', '!']) ∧
      (['a', '!'] ≠ [] ∧ ∃ c ∈ ['a', '!'], isSep c = false ∧ pySpace c = false) :=
  ⟨by decide, claim_C8_segment_invariant ['a', '!'] ['a', '!'] (by decide)⟩

end RealtimeAITalk
